import Mathlib

/-!
Verification of the aieng todo/patch engine.

Shallow embedding of the core of the repository:
* models.py      — `TodoStatus`, `Todo`, `TodoPlan`, `FileEdit`
* todo_manager.py — `TodoManager` with `set_plan`, `get_todo`, `mark_in_progress`,
  `mark_completed`, `get_ready_todos`, `get_next_todo`
* diff.py        — `DiffResult`, `validate_edit`, `apply_edit`, `apply_edits`,
  `generate_diff_text` (including the difflib.SequenceMatcher opcode computation)
* orchestrator.py — the todo-selection loop of `process_user_request`

The filesystem is modelled as a flat map from path strings to file contents plus a set
of directory paths; `project_root` joining is the identity (paths are opaque keys).
Python `str` values are Lean `String`s; character-level operations are defined on
`List Char` and applied to `String.data`.
-/

namespace Aieng

/-- Whitespace characters recognised by Python `str.strip()` (the ASCII set). -/
def pyIsSpace (c : Char) : Bool :=
  c = ' ' || c = '\t' || c = '\n' || c = '\r' || c = '\x0b' || c = '\x0c'

/-- Python `str.strip()`: drop leading and trailing whitespace characters. -/
def stripChars (s : List Char) : List Char :=
  ((s.dropWhile pyIsSpace).reverse.dropWhile pyIsSpace).reverse

/-- Python substring test `needle in hay`. -/
def occursIn (needle : List Char) : List Char → Bool
  | [] => needle.isPrefixOf []
  | c :: rest => needle.isPrefixOf (c :: rest) || occursIn needle rest

/-- Number of positions of `hay` at which `needle` occurs (overlapping occurrences count). -/
def occCount (needle : List Char) : List Char → Nat
  | [] => if needle.isPrefixOf [] then 1 else 0
  | c :: rest => (if needle.isPrefixOf (c :: rest) then 1 else 0) + occCount needle rest

/-- Python `hay.replace(old, new, 1)`: substitute the first occurrence of `old` only. -/
def replaceFirst (old new : List Char) : List Char → List Char
  | [] => if old.isPrefixOf [] then new else []
  | c :: rest =>
    if old.isPrefixOf (c :: rest) then new ++ (c :: rest).drop old.length
    else c :: replaceFirst old new rest

/-- Status of a todo item (models.TodoStatus). -/
inductive TodoStatus where
  | pending
  | in_progress
  | completed
deriving DecidableEq

/-- models.Todo (pydantic model; `active_form` defaulting happens at construction). -/
structure Todo where
  id : Int
  task : String
  active_form : String
  reasoning : String
  priority : String
  status : TodoStatus
  dependencies : List Int
deriving DecidableEq

/-- models.TodoPlan. -/
structure TodoPlan where
  summary : String
  todos : List Todo
deriving DecidableEq

/-- models.FileEdit. -/
structure FileEdit where
  file_path : String
  old_content : String
  new_content : String
  description : String
deriving DecidableEq

/-- diff.DiffResult. -/
structure DiffResult where
  success : Bool
  error : Option String
deriving DecidableEq

/-- State held by todo_manager.TodoManager. -/
structure TodoManager where
  todos : List Todo
  plan_summary : String
  current_todo_id : Option Int
deriving DecidableEq

/-- The loop body of TodoManager.set_plan: copy each incoming todo, forcing its status
to pending. -/
def resetTodos : List Todo → List Todo
  | [] => []
  | t :: ts => { t with status := TodoStatus.pending } :: resetTodos ts

/-- TodoManager.set_plan. -/
def TodoManager.set_plan (m : TodoManager) (plan : TodoPlan) : TodoManager :=
  { m with plan_summary := plan.summary, todos := resetTodos plan.todos }

/-- Linear scan for the first todo with the given id (loop of TodoManager.get_todo). -/
def findTodo : List Todo → Int → Option Todo
  | [], _ => none
  | t :: ts, i => if t.id = i then some t else findTodo ts i

/-- TodoManager.get_todo. -/
def TodoManager.get_todo (m : TodoManager) (todo_id : Int) : Option Todo :=
  findTodo m.todos todo_id

/-- Set the status of the first todo with the given id (the for/break loops of
mark_in_progress and mark_completed); also reports whether a todo was found. -/
def setStatusFirst (st : TodoStatus) : List Todo → Int → List Todo × Bool
  | [], _ => ([], false)
  | t :: ts, i =>
    if t.id = i then ({ t with status := st } :: ts, true)
    else
      let r := setStatusFirst st ts i
      (t :: r.1, r.2)

/-- TodoManager.mark_in_progress: unconditionally sets the first matching todo to
in_progress and records it as current. -/
def TodoManager.mark_in_progress (m : TodoManager) (todo_id : Int) : TodoManager :=
  let r := setStatusFirst TodoStatus.in_progress m.todos todo_id
  { m with todos := r.1, current_todo_id := if r.2 then some todo_id else m.current_todo_id }

/-- TodoManager.mark_completed: sets the first matching todo to completed and clears the
current pointer when it pointed at that todo. -/
def TodoManager.mark_completed (m : TodoManager) (todo_id : Int) : TodoManager :=
  let r := setStatusFirst TodoStatus.completed m.todos todo_id
  let cur := if r.2 && (m.current_todo_id == some todo_id) then none else m.current_todo_id
  { m with todos := r.1, current_todo_id := cur }

/-- The completed_ids set computed at the top of get_ready_todos. -/
def completedIds (ts : List Todo) : List Int :=
  (ts.filter fun t => decide (t.status = TodoStatus.completed)).map (·.id)

/-- TodoManager.get_ready_todos: pending todos all of whose dependencies are completed. -/
def TodoManager.get_ready_todos (m : TodoManager) : List Todo :=
  m.todos.filter fun t =>
    decide (t.status = TodoStatus.pending) &&
      t.dependencies.all fun d => (completedIds m.todos).contains d

/-- priority_order.get(t.priority, 1) from get_next_todo: high=0, medium=1, low=2,
anything else defaults to 1. -/
def priorityRank (p : String) : Nat :=
  if p = "high" then 0 else if p = "medium" then 1 else if p = "low" then 2 else 1

/-- The sort key comparison of get_next_todo: ascending (priority rank, id). -/
def todoLE (a b : Todo) : Bool :=
  decide (priorityRank a.priority < priorityRank b.priority ∨
    (priorityRank a.priority = priorityRank b.priority ∧ a.id ≤ b.id))

/-- Stable insertion of a todo into an already-sorted list: the new todo goes before
the first element it compares ≤ to but not ≥, i.e. before the first strictly greater
element, keeping equal-key elements in their existing order. -/
def insertSorted (t : Todo) : List Todo → List Todo
  | [] => [t]
  | u :: us => if todoLE t u then t :: u :: us else u :: insertSorted t us

/-- Stable ascending sort by todoLE (list.sort with the key of get_next_todo is a
stable ascending sort; any stable sort computes the same list). -/
def insertionSort : List Todo → List Todo
  | [] => []
  | t :: ts => insertSorted t (insertionSort ts)

/-- TodoManager.get_next_todo: stable-sort the ready todos by (priority rank, id) and
return the first, or none when no todo is ready. -/
def TodoManager.get_next_todo (m : TodoManager) : Option Todo :=
  (insertionSort m.get_ready_todos).head?

/-- Orchestrator (process_user_request): the ready_todos comprehension over the
remaining todos, keeping those whose dependencies are all among the completed ids. -/
def readyTodos (remaining completed : List Todo) : List Todo :=
  remaining.filter fun t =>
    t.dependencies.all fun d => (completed.map (·.id)).contains d

/-- Orchestrator: choice of the current todo, including the escape valve that picks
remaining_todos[0] when no todo is ready. -/
def selectNextTodo (remaining completed : List Todo) : Option Todo :=
  match remaining with
  | [] => none
  | r :: _ =>
    match readyTodos remaining completed with
    | [] => some r
    | t :: _ => some t

/-- Orchestrator loop skeleton: the while-loop of process_user_request. Each iteration
selects a todo, removes it from remaining (list.remove), and — depending on the outcome
of processing, abstracted as an oracle — appends it to completed_todos. Returns the
todos in processing order. -/
def processLoop (outcome : Todo → Bool) (remaining completed : List Todo) : List Todo :=
  match h : selectNextTodo remaining completed with
  | none => []
  | some cur =>
    cur :: processLoop outcome (remaining.erase cur)
      (if outcome cur then completed ++ [cur] else completed)
termination_by remaining.length
decreasing_by
  have hm : cur ∈ remaining := by
    cases remaining with
    | nil => simp [selectNextTodo] at h
    | cons r rs =>
      unfold selectNextTodo at h
      cases hr : readyTodos (r :: rs) completed with
      | nil =>
        rw [hr] at h
        simp only [Option.some.injEq] at h
        rw [← h]; exact List.mem_cons_self r rs
      | cons x xs =>
        rw [hr] at h
        simp only [Option.some.injEq] at h
        exact List.mem_of_mem_filter
          (show cur ∈ readyTodos (r :: rs) completed by
            rw [hr, ← h]; exact List.mem_cons_self x xs)
  have hne : remaining ≠ [] := by rintro rfl; simp at hm
  rw [List.length_erase_of_mem hm]
  have hp : 0 < remaining.length := List.length_pos.mpr hne
  omega

/-- The filesystem seen by diff.DiffProcessor: a flat map from path to file content plus
a set of directory paths (paths are opaque keys; project_root joining is the identity). -/
structure FileSystem where
  files : List (String × String)
  dirs : List String
deriving DecidableEq

/-- Look up a file's content by path. -/
def lookupFile : List (String × String) → String → Option String
  | [], _ => none
  | (p, c) :: rest, q => if p = q then some c else lookupFile rest q

/-- Create or overwrite the binding of a path to a content. -/
def setFile : List (String × String) → String → String → List (String × String)
  | [], p, c => [(p, c)]
  | (q, d) :: rest, p, c => if q = p then (p, c) :: rest else (q, d) :: setFile rest p c

/-- Path.exists(): a file or directory is present at the path. -/
def pathExists (fs : FileSystem) (p : String) : Bool :=
  (lookupFile fs.files p).isSome || fs.dirs.contains p

/-- open(path, "r").read(): succeeds exactly on files (reading a directory raises, which
the callers below turn into an error result). -/
def readFile (fs : FileSystem) (p : String) : Option String :=
  if fs.dirs.contains p then none else lookupFile fs.files p

/-- open(path, "w") followed by write(c): creates or truncates the file; raises when the
path names a directory. -/
def writeFile (fs : FileSystem) (p : String) (c : String) : Option FileSystem :=
  if fs.dirs.contains p then none else some { fs with files := setFile fs.files p c }

/-- Path.mkdir(parents=True, exist_ok=True) on the flat model: record the directory. -/
def mkdirP (fs : FileSystem) (p : String) : FileSystem :=
  if fs.dirs.contains p then fs else { fs with dirs := p :: fs.dirs }

/-- edit.file_path.endswith("/"). -/
def endsWithSlash (s : String) : Bool :=
  match s.data.getLast? with
  | some c => c = '/'
  | none => false

/-- DiffProcessor.validate_edit: the read-only three-way dispatch. It returns only a
result — it performs no filesystem mutation (the source method only reads). -/
def validate_edit (fs : FileSystem) (edit : FileEdit) : DiffResult :=
  if stripChars edit.old_content.data = [] then
    if pathExists fs edit.file_path then
      DiffResult.mk false (some ("File already exists: " ++ edit.file_path))
    else DiffResult.mk true none
  else if edit.old_content = "REWRITE_ENTIRE_FILE" then
    if pathExists fs edit.file_path then DiffResult.mk true none
    else DiffResult.mk false (some ("File does not exist: " ++ edit.file_path))
  else if pathExists fs edit.file_path = false then
    DiffResult.mk false (some ("File does not exist: " ++ edit.file_path))
  else
    match readFile fs edit.file_path with
    | none => DiffResult.mk false (some ("Error reading file " ++ edit.file_path))
    | some current =>
      if stripChars edit.old_content.data = stripChars current.data then
        DiffResult.mk true none
      else if occursIn edit.old_content.data current.data then DiffResult.mk true none
      else
        DiffResult.mk false (some ("Content validation will fail for " ++ edit.file_path))

/-- content[:100] + "..." when the content exceeds 100 characters (apply_edit's preview). -/
def pyPreview (s : String) : String :=
  if 100 < s.data.length then String.mk (s.data.take 100) ++ "..." else s

/-- Hexadecimal digit characters, for repr escapes. -/
def hexDigit (n : Nat) : Char :=
  if n = 0 then '0' else if n = 1 then '1' else if n = 2 then '2' else if n = 3 then '3'
  else if n = 4 then '4' else if n = 5 then '5' else if n = 6 then '6'
  else if n = 7 then '7' else if n = 8 then '8' else if n = 9 then '9'
  else if n = 10 then 'a' else if n = 11 then 'b' else if n = 12 then 'c'
  else if n = 13 then 'd' else if n = 14 then 'e' else 'f'

/-- The quote character Python repr() picks for a string. -/
def pyQuote (s : List Char) : Char :=
  if s.contains '\'' && !s.contains '\"' then '\"' else '\''

/-- Python repr() escape of one character under the chosen quote. -/
def pyEscape (q c : Char) : List Char :=
  if c = '\\' then ['\\', '\\']
  else if c = '\n' then ['\\', 'n']
  else if c = '\r' then ['\\', 'r']
  else if c = '\t' then ['\\', 't']
  else if c = q then ['\\', q]
  else if c.toNat < 32 || c.toNat = 127 then
    ['\\', 'x', hexDigit (c.toNat / 16), hexDigit (c.toNat % 16)]
  else [c]

/-- Python repr() of a string. -/
def pyRepr (s : String) : String :=
  let q := pyQuote s.data
  String.mk (q :: (s.data.map (pyEscape q)).flatten ++ [q])

/-- The diagnostic apply_edit produces when the old content is not found in the file. -/
def notFoundMsg (edit : FileEdit) (current : String) : String :=
  "Old content not found in " ++ edit.file_path ++ ".\nLooking for: " ++
    pyRepr (pyPreview edit.old_content) ++ "\nFile starts with: " ++
    pyRepr (pyPreview current)

/-- The error result produced when a branch of apply_edit raises. -/
def applyErr (edit : FileEdit) : DiffResult :=
  DiffResult.mk false (some ("Error applying edit to " ++ edit.file_path))

/-- DiffProcessor.apply_edit: the read-write three-way dispatch, returning the result
together with the filesystem after the call. -/
def apply_edit (fs : FileSystem) (edit : FileEdit) : DiffResult × FileSystem :=
  if endsWithSlash edit.file_path then (DiffResult.mk true none, mkdirP fs edit.file_path)
  else if stripChars edit.old_content.data = [] then
    match writeFile fs edit.file_path edit.new_content with
    | some fs' => (DiffResult.mk true none, fs')
    | none => (applyErr edit, fs)
  else if edit.old_content = "REWRITE_ENTIRE_FILE" then
    match writeFile fs edit.file_path edit.new_content with
    | some fs' => (DiffResult.mk true none, fs')
    | none => (applyErr edit, fs)
  else
    match readFile fs edit.file_path with
    | none => (applyErr edit, fs)
    | some current =>
      if stripChars edit.old_content.data = stripChars current.data then
        match writeFile fs edit.file_path edit.new_content with
        | some fs' => (DiffResult.mk true none, fs')
        | none => (applyErr edit, fs)
      else if occursIn edit.old_content.data current.data then
        match writeFile fs edit.file_path
            (String.mk (replaceFirst edit.old_content.data edit.new_content.data
              current.data)) with
        | some fs' => (DiffResult.mk true none, fs')
        | none => (applyErr edit, fs)
      else (DiffResult.mk false (some (notFoundMsg edit current)), fs)

/-- DiffProcessor.apply_edits: apply candidates in order, stop at the first failure. -/
def apply_edits : FileSystem → List FileEdit → List DiffResult × FileSystem
  | fs, [] => ([], fs)
  | fs, e :: rest =>
    let r := apply_edit fs e
    if r.1.success then
      let rs := apply_edits r.2 rest
      (r.1 :: rs.1, rs.2)
    else ([r.1], r.2)

/-- Python str.splitlines() over the line terminators \n, \r\n and \r. -/
def slChars : List Char → List String
  | [] => []
  | '\r' :: '\n' :: rest => String.mk [] :: slChars rest
  | '\r' :: rest => String.mk [] :: slChars rest
  | '\n' :: rest => String.mk [] :: slChars rest
  | c :: rest =>
    match slChars rest with
    | [] => [String.mk [c]]
    | l :: ls => String.mk (c :: l.data) :: ls

/-- str.splitlines() on a String. -/
def splitlines (s : String) : List String := slChars s.data

/-- "\n".join(lines). -/
def joinNL : List String → String
  | [] => ""
  | [l] => l
  | l :: rest => l ++ "\n" ++ joinNL rest

/-- The decimal digit characters. -/
def digitChar10 (n : Nat) : Char :=
  if n = 0 then '0' else if n = 1 then '1' else if n = 2 then '2' else if n = 3 then '3'
  else if n = 4 then '4' else if n = 5 then '5' else if n = 6 then '6'
  else if n = 7 then '7' else if n = 8 then '8' else '9'

/-- Decimal digits with a fuel bound (the fuel strictly exceeds the digit count). -/
def natDigitsAux : Nat → Nat → List Char
  | 0, _ => []
  | fuel + 1, n =>
    if n < 10 then [digitChar10 n]
    else natDigitsAux fuel (n / 10) ++ [digitChar10 (n % 10)]

/-- Decimal digits of a natural number (Python str() of a nonnegative int). -/
def natDigits (n : Nat) : List Char := natDigitsAux (n + 1) n

/-- Decimal string of a natural number. -/
def natStr (n : Nat) : String := String.mk (natDigits n)

/-- A matching block found by difflib: a[besti : besti+size] = b[bestj : bestj+size]. -/
structure MatchBlock where
  besti : Nat
  bestj : Nat
  size : Nat
deriving DecidableEq

/-- The ascending list of indices j with b[j] = x (one entry of difflib's b2j map;
isjunk is None and the inputs stay far below the 200-element autojunk threshold, so no
junk filtering applies). -/
def indicesOf (x : String) (b : List String) : List Nat :=
  (List.range b.length).filter fun j => decide (b.getD j (String.mk []) = x)

/-- Association-list lookup with default 0 (the j2len dict of find_longest_match). -/
def lookupLen : List (Nat × Nat) → Nat → Nat
  | [], _ => 0
  | (j, k) :: rest, q => if j = q then k else lookupLen rest q

/-- The inner loop of find_longest_match for a fixed row i: scan the b-indices of a[i],
extending runs recorded in j2len and tracking the leftmost longest block. -/
def flmRow (blo bhi i : Nat) :
    List Nat → List (Nat × Nat) → List (Nat × Nat) → MatchBlock →
      List (Nat × Nat) × MatchBlock
  | [], _, newj2len, best => (newj2len, best)
  | j :: js, j2len, newj2len, best =>
    if j < blo then flmRow blo bhi i js j2len newj2len best
    else if bhi ≤ j then (newj2len, best)
    else
      let k := (if j = 0 then 0 else lookupLen j2len (j - 1)) + 1
      let best' :=
        if best.size < k then MatchBlock.mk (i + 1 - k) (j + 1 - k) k else best
      flmRow blo bhi i js j2len ((j, k) :: newj2len) best'

/-- The row iteration of find_longest_match over i = alo .. ahi-1. -/
def flmRows (a b : List String) (blo bhi : Nat) :
    List Nat → List (Nat × Nat) → MatchBlock → MatchBlock
  | [], _, best => best
  | i :: is, j2len, best =>
    let r := flmRow blo bhi i (indicesOf (a.getD i (String.mk [])) b) j2len [] best
    flmRows a b blo bhi is r.1 r.2

/-- difflib.SequenceMatcher.find_longest_match (junk-free). -/
def find_longest_match (a b : List String) (alo ahi blo bhi : Nat) : MatchBlock :=
  flmRows a b blo bhi (List.range' alo (ahi - alo)) [] (MatchBlock.mk alo blo 0)

/-- The recursive splitting of get_matching_blocks (CPython's work queue, emitted here
directly in the sorted order the queue's results are put into afterwards). The fuel
argument strictly exceeds any possible recursion depth at the top-level call. -/
def matchBlocksAux (a b : List String) : Nat → Nat → Nat → Nat → Nat → List MatchBlock
  | 0, _, _, _, _ => []
  | fuel + 1, alo, ahi, blo, bhi =>
    let m := find_longest_match a b alo ahi blo bhi
    if m.size = 0 then []
    else
      (if alo < m.besti && blo < m.bestj then
        matchBlocksAux a b fuel alo m.besti blo m.bestj
      else []) ++
      [m] ++
      (if m.besti + m.size < ahi && m.bestj + m.size < bhi then
        matchBlocksAux a b fuel (m.besti + m.size) ahi (m.bestj + m.size) bhi
      else [])

/-- The adjacent-block merging pass at the end of get_matching_blocks. -/
def mergeAdjacent : Nat → Nat → Nat → List MatchBlock → List MatchBlock
  | i1, j1, k1, [] => if k1 = 0 then [] else [MatchBlock.mk i1 j1 k1]
  | i1, j1, k1, m :: rest =>
    if i1 + k1 = m.besti ∧ j1 + k1 = m.bestj then mergeAdjacent i1 j1 (k1 + m.size) rest
    else
      (if k1 = 0 then [] else [MatchBlock.mk i1 j1 k1]) ++
        mergeAdjacent m.besti m.bestj m.size rest

/-- difflib.SequenceMatcher.get_matching_blocks (with the terminating (la, lb, 0)). -/
def get_matching_blocks (a b : List String) : List MatchBlock :=
  mergeAdjacent 0 0 0
      (matchBlocksAux a b (a.length + b.length + 1) 0 a.length 0 b.length) ++
    [MatchBlock.mk a.length b.length 0]

/-- Opcode tags of SequenceMatcher.get_opcodes. -/
inductive OpTag where
  | replace
  | delete
  | insert
  | equal
deriving DecidableEq

/-- One opcode (tag, i1, i2, j1, j2). -/
structure Opcode where
  tag : OpTag
  i1 : Nat
  i2 : Nat
  j1 : Nat
  j2 : Nat
deriving DecidableEq

/-- The opcode walk of get_opcodes over the matching blocks. -/
def opcodesFrom : Nat → Nat → List MatchBlock → List Opcode
  | _, _, [] => []
  | i, j, m :: rest =>
    (if i < m.besti ∧ j < m.bestj then [Opcode.mk OpTag.replace i m.besti j m.bestj]
     else if i < m.besti then [Opcode.mk OpTag.delete i m.besti j m.bestj]
     else if j < m.bestj then [Opcode.mk OpTag.insert i m.besti j m.bestj]
     else []) ++
    (if m.size = 0 then [] else
      [Opcode.mk OpTag.equal m.besti (m.besti + m.size) m.bestj (m.bestj + m.size)]) ++
    opcodesFrom (m.besti + m.size) (m.bestj + m.size) rest

/-- difflib.SequenceMatcher.get_opcodes. -/
def get_opcodes (a b : List String) : List Opcode :=
  opcodesFrom 0 0 (get_matching_blocks a b)

/-- lines[s:e]. -/
def sliceL (l : List String) (s e : Nat) : List String := (l.drop s).take (e - s)

/-- DiffProcessor.generate_diff_text: walk the opcodes, skip equal ones, emit a single
@@-headed chunk for the first difference (the source breaks out of its loop after the
first chunk: "Only show the first difference for now"), with 3 lines of context and a
1-based @@ -start,count +start,count @@ header. -/
def generate_diff_text (old_content new_content file_path : String) : String :=
  let old_lines := splitlines old_content
  let new_lines := splitlines new_content
  let ops := get_opcodes old_lines new_lines
  match ops.find? (fun op => decide (¬ op.tag = OpTag.equal)) with
  | none => joinNL []
  | some op =>
    let context := 3
    let start_old := op.i1 - context
    let end_old := min old_lines.length (op.i2 + context)
    let start_new := op.j1 - context
    let end_new := min new_lines.length (op.j2 + context)
    let header := "@@ -" ++ natStr (start_old + 1) ++ "," ++ natStr (end_old - start_old)
      ++ " +" ++ natStr (start_new + 1) ++ "," ++ natStr (end_new - start_new) ++ " @@"
    let ctxBefore := (sliceL old_lines start_old op.i1).map (fun l => " " ++ l)
    let changes :=
      match op.tag with
      | OpTag.delete => (sliceL old_lines op.i1 op.i2).map (fun l => "-" ++ l)
      | OpTag.insert => (sliceL new_lines op.j1 op.j2).map (fun l => "+" ++ l)
      | OpTag.replace =>
        (sliceL old_lines op.i1 op.i2).map (fun l => "-" ++ l) ++
          (sliceL new_lines op.j1 op.j2).map (fun l => "+" ++ l)
      | OpTag.equal => []
    let ctxAfter := (sliceL old_lines op.i2 end_old).map (fun l => " " ++ l)
    joinNL (header :: (ctxBefore ++ changes ++ ctxAfter))

/-- Parse leading decimal digits of a character list (0 when there are none). -/
def parseNatAux : List Char → Nat → Nat
  | [], acc => acc
  | c :: rest, acc =>
    if decide ('0' ≤ c ∧ c ≤ '9') then parseNatAux rest (acc * 10 + (c.toNat - 48))
    else acc

/-- Modelled from the spec: P8's conceptual hunk application ("applying the diff
engine's hunk to the original text"), which the repository does not implement. A hunk in
the generated format is replayed against the old text: an @@ header moves the cursor to
its 1-based old start line, ' ' and '-' lines consume one old line each, and ' ' and '+'
lines emit their payload. -/
def applyHunkLine (old_lines : List String) (acc : List String × Nat)
    (line : String) : List String × Nat :=
  match line.data with
  | '@' :: '@' :: ' ' :: '-' :: rest =>
    let a := parseNatAux rest 0
    (acc.1 ++ sliceL old_lines acc.2 (a - 1), a - 1)
  | ' ' :: rest => (acc.1 ++ [String.mk rest], acc.2 + 1)
  | '-' :: _ => (acc.1, acc.2 + 1)
  | '+' :: rest => (acc.1 ++ [String.mk rest], acc.2)
  | _ => (acc.1, acc.2)

/-- Modelled from the spec: replay every hunk line of a generated diff over the old
text and join the reconstructed lines. -/
def applyHunks (old_content diff_text : String) : String :=
  let old_lines := splitlines old_content
  let r := (splitlines diff_text).foldl (applyHunkLine old_lines) ([], 0)
  joinNL (r.1 ++ old_lines.drop r.2)

/-- Concrete fixture: a manager holding one already-completed todo. -/
def mgrFix : TodoManager :=
  TodoManager.mk [Todo.mk 1 "t" "t..." "" "high" TodoStatus.completed []] "" none

/-- Concrete fixture: a manager with no todos. -/
def mgrEmptyFix : TodoManager := TodoManager.mk [] "" none

/-- Concrete fixture: a plan whose todos arrive already marked completed/in-progress. -/
def planFix : TodoPlan :=
  TodoPlan.mk "s"
    [Todo.mk 1 "a" "a..." "" "high" TodoStatus.completed [],
     Todo.mk 2 "b" "b..." "" "low" TodoStatus.in_progress [1]]

/-- Concrete fixture: a small filesystem with two files. -/
def fsFix : FileSystem := FileSystem.mk [("a.txt", "x"), ("f.txt", "one two one")] []

/-- Concrete fixture: an empty-old-fragment (create) candidate aimed at a.txt. -/
def editCreateFix : FileEdit := FileEdit.mk "a.txt" "" "y" "d"

/-- Concrete fixture: a whitespace-only-old-fragment candidate aimed at a.txt. -/
def editWsFix : FileEdit := FileEdit.mk "a.txt" "  " "y" "d"

/-- Concrete fixture: a create candidate aimed at a path that does not exist. -/
def editNewFix : FileEdit := FileEdit.mk "c.txt" "" "v" "d"

/-- Concrete fixture: a targeted candidate whose old fragment misses f.txt. -/
def editMissFix : FileEdit := FileEdit.mk "f.txt" "zzz" "w" "d"

/-- Concrete fixture: a targeted candidate whose old fragment occurs twice in f.txt. -/
def editPatchFix : FileEdit := FileEdit.mk "f.txt" "one" "1" "d"

/-- Concrete fixture: the P4-style candidate list (valid, invalid, valid). -/
def editsFix : List FileEdit := [editPatchFix, editMissFix, editNewFix]

/-- Concrete fixture: a pending todo whose only dependency is not completed. -/
def blockedTodoFix : Todo := Todo.mk 1 "t" "t..." "" "high" TodoStatus.pending [2]

/-- Concrete fixture: old side of a full rewrite with two separated changes. -/
def oldRFix : String := "a\nx\nb\ny\nc"

/-- Concrete fixture: new side of a full rewrite with two separated changes. -/
def newRFix : String := "a\nX\nb\nY\nc"

/-- Concrete fixture: the high-priority pending todo among prioritised peers. -/
def prioHighFix : Todo := Todo.mk 2 "h" "h..." "" "high" TodoStatus.pending []

/-- Concrete fixture: a manager with pending todos of priorities low, high, medium. -/
def mgrPrioFix : TodoManager :=
  TodoManager.mk
    [Todo.mk 1 "l" "l..." "" "low" TodoStatus.pending [],
     prioHighFix,
     Todo.mk 3 "m" "m..." "" "medium" TodoStatus.pending []] "" none

/-! Theorems. -/

/-- setStatusFirst rewrites exactly the first todo carrying the requested id, as seen
through the first-match lookup findTodo. -/
theorem findTodo_setStatusFirst (st : TodoStatus) (ts : List Todo) (i : Int) :
    findTodo (setStatusFirst st ts i).1 i =
      (findTodo ts i).map fun t => { t with status := st } := by
  induction ts with
  | nil => rfl
  | cons t ts ih =>
    by_cases h : t.id = i
    · simp [setStatusFirst, findTodo, h]
    · simp [setStatusFirst, findTodo, h, ih]

/-- C6 (amended): task status is not guarded — mark_in_progress unconditionally sets
the status of the first todo with the given id to InProgress, even when that todo is
already Completed; no Completed-stays-Completed invariant holds. -/
theorem mark_in_progress_unguarded (m : TodoManager) (todo_id : Int) :
    (m.mark_in_progress todo_id).get_todo todo_id =
      (m.get_todo todo_id).map fun t => { t with status := TodoStatus.in_progress } := by
  unfold TodoManager.mark_in_progress TodoManager.get_todo
  exact findTodo_setStatusFirst _ _ _

/-- C6: counterexample — on a manager whose todo 1 is Completed, mark_in_progress 1
moves that todo to InProgress, so it does not stay Completed. -/
theorem mark_in_progress_not_monotonic :
    (mgrFix.get_todo 1).map Todo.status = some TodoStatus.completed ∧
    ((mgrFix.mark_in_progress 1).get_todo 1).map Todo.status =
      some TodoStatus.in_progress ∧
    TodoStatus.in_progress ≠ TodoStatus.completed := by
  refine ⟨rfl, rfl, by decide⟩

/-- The set_plan loop is a map forcing every status to pending. -/
theorem resetTodos_eq_map (ts : List Todo) :
    resetTodos ts = ts.map fun t => { t with status := TodoStatus.pending } := by
  induction ts with
  | nil => rfl
  | cons t ts ih => simp [resetTodos, ih]

/-- C10: set_plan stores a fresh copy of every incoming todo with status forced to
Pending — the incoming status field is ignored (todos arriving InProgress/Completed
still come out Pending), all other fields are kept, and the summary is taken over; the
caller's plan value is never mutated (set_plan builds a new todo list). -/
theorem set_plan_resets (m : TodoManager) (plan : TodoPlan) :
    (m.set_plan plan).todos =
      plan.todos.map (fun t => { t with status := TodoStatus.pending }) ∧
    (∀ t ∈ (m.set_plan plan).todos, t.status = TodoStatus.pending) ∧
    (m.set_plan plan).plan_summary = plan.summary := by
  refine ⟨resetTodos_eq_map plan.todos, ?_, rfl⟩
  intro t ht
  simp only [TodoManager.set_plan] at ht
  rw [resetTodos_eq_map] at ht
  obtain ⟨u, _, rfl⟩ := List.mem_map.mp ht
  rfl

/-- C10 witness: on a plan arriving with Completed and InProgress todos, the stored
todos are exactly the incoming ones with status reset to Pending. -/
theorem set_plan_resets_witness :
    (mgrEmptyFix.set_plan planFix).todos =
      planFix.todos.map (fun t => { t with status := TodoStatus.pending }) :=
  (set_plan_resets mgrEmptyFix planFix).1

/-- Reading back through a write at the written path. -/
theorem lookupFile_setFile_self (fl : List (String × String)) (p c : String) :
    lookupFile (setFile fl p c) p = some c := by
  induction fl with
  | nil => simp [setFile, lookupFile]
  | cons pc rest ih =>
    obtain ⟨q, d⟩ := pc
    by_cases h : q = p
    · simp [setFile, h, lookupFile]
    · simp [setFile, h, lookupFile, ih]

/-- A write leaves every other path's binding unchanged. -/
theorem lookupFile_setFile_other (fl : List (String × String)) (p c q : String)
    (hq : q ≠ p) :
    lookupFile (setFile fl p c) q = lookupFile fl q := by
  have hpq : p ≠ q := Ne.symm hq
  induction fl with
  | nil => simp [setFile, lookupFile, hpq]
  | cons pc rest ih =>
    obtain ⟨r, d⟩ := pc
    by_cases h : r = p
    · subst h
      simp [setFile, lookupFile, hpq]
    · simp [setFile, h, lookupFile, ih]

/-- C4: with an empty/whitespace-only old fragment, validate succeeds exactly when the
target path does not exist, and fails with the "File already exists" diagnostic when it
does; validate performs no filesystem mutation (it is a pure read of the model state). -/
theorem validate_create_only (fs : FileSystem) (edit : FileEdit)
    (h : stripChars edit.old_content.data = []) :
    (validate_edit fs edit = DiffResult.mk true none ↔
      pathExists fs edit.file_path = false) ∧
    (pathExists fs edit.file_path = true →
      validate_edit fs edit =
        DiffResult.mk false (some ("File already exists: " ++ edit.file_path))) := by
  unfold validate_edit
  rw [h]
  cases hx : pathExists fs edit.file_path <;> simp

/-- C4 witness: against the existing a.txt the whitespace-only candidate fails with the
file-already-exists diagnostic; against an empty filesystem it validates. -/
theorem validate_create_only_witness :
    validate_edit fsFix editWsFix =
      DiffResult.mk false (some ("File already exists: " ++ editWsFix.file_path)) ∧
    validate_edit (FileSystem.mk [] []) editWsFix = DiffResult.mk true none :=
  ⟨(validate_create_only fsFix editWsFix (by decide)).2 (by decide),
   (validate_create_only (FileSystem.mk [] []) editWsFix (by decide)).1.mpr (by decide)⟩

/-- C5: counterexample — apply of the empty-old-fragment candidate against the existing
a.txt (content "x") does not fail and does not leave the file unchanged: it succeeds
and overwrites the content with "y". -/
theorem apply_create_overwrites :
    pathExists fsFix editCreateFix.file_path = true ∧
    readFile fsFix editCreateFix.file_path = some "x" ∧
    (apply_edit fsFix editCreateFix).1 = DiffResult.mk true none ∧
    readFile (apply_edit fsFix editCreateFix).2 editCreateFix.file_path = some "y" := by
  refine ⟨by decide, by decide, by decide, by decide⟩

/-- C5 (amended): for an empty/whitespace-only old fragment, apply never re-checks
existence — it writes the new fragment and succeeds whether or not the target file
already exists (overwriting any existing content), leaving every other path untouched;
only validate performs the create-only existence check. -/
theorem apply_create_unconditional (fs : FileSystem) (edit : FileEdit)
    (h : stripChars edit.old_content.data = [])
    (hp : endsWithSlash edit.file_path = false)
    (hd : fs.dirs.contains edit.file_path = false) :
    (apply_edit fs edit).1 = DiffResult.mk true none ∧
    readFile (apply_edit fs edit).2 edit.file_path = some edit.new_content ∧
    (∀ q, q ≠ edit.file_path → readFile (apply_edit fs edit).2 q = readFile fs q) := by
  have hw : writeFile fs edit.file_path edit.new_content =
      some { fs with files := setFile fs.files edit.file_path edit.new_content } := by
    unfold writeFile
    rw [hd]
    simp
  have happ : apply_edit fs edit =
      (DiffResult.mk true none,
        { fs with files := setFile fs.files edit.file_path edit.new_content }) := by
    unfold apply_edit
    rw [hp, h, hw]
    simp
  rw [happ]
  have hd' : edit.file_path ∉ fs.dirs := by simpa using hd
  refine ⟨rfl, ?_, ?_⟩
  · simp [readFile, hd', lookupFile_setFile_self]
  · intro q hq
    by_cases hcq : q ∈ fs.dirs
    · simp [readFile, hcq]
    · simp [readFile, hcq, lookupFile_setFile_other fs.files edit.file_path
        edit.new_content q hq]

/-- C5 (amended) witness: the concrete overwrite of a.txt by the whitespace-only
candidate, with f.txt untouched. -/
theorem apply_create_unconditional_witness :
    (apply_edit fsFix editWsFix).1 = DiffResult.mk true none ∧
    readFile (apply_edit fsFix editWsFix).2 editWsFix.file_path =
      some editWsFix.new_content :=
  ⟨(apply_create_unconditional fsFix editWsFix (by decide) (by decide) (by decide)).1,
   (apply_create_unconditional fsFix editWsFix (by decide) (by decide) (by decide)).2.1⟩

/-- Boolean prefix test as a decomposition. -/
theorem isPrefixOf_eq_true {l₁ l₂ : List Char} :
    l₁.isPrefixOf l₂ = true ↔ ∃ t, l₂ = l₁ ++ t := by
  induction l₁ generalizing l₂ with
  | nil => simp [List.isPrefixOf]
  | cons a as ih =>
    cases l₂ with
    | nil => simp [List.isPrefixOf]
    | cons b bs =>
      simp only [List.isPrefixOf, Bool.and_eq_true, beq_iff_eq, ih, List.cons_append,
        List.cons.injEq]
      constructor
      · rintro ⟨rfl, t, rfl⟩
        exact ⟨t, rfl, rfl⟩
      · rintro ⟨t, rfl, rfl⟩
        exact ⟨rfl, t, rfl⟩

/-- A positive occurrence count yields the Boolean substring test. -/
theorem occursIn_of_occCount (old s : List Char) (h : 0 < occCount old s) :
    occursIn old s = true := by
  induction s with
  | nil =>
    unfold occCount at h
    unfold occursIn
    by_cases hp : old.isPrefixOf [] = true
    · exact hp
    · rw [if_neg hp] at h
      omega
  | cons c rest ih =>
    unfold occCount at h
    unfold occursIn
    by_cases hp : old.isPrefixOf (c :: rest) = true
    · simp [hp]
    · rw [if_neg hp] at h
      simp [hp, ih (by omega)]

/-- Python replace(old, new, 1): when old occurs in s, the result substitutes new for
the leftmost occurrence of old and keeps every other character of s. -/
theorem replaceFirst_decomp (old new : List Char) (s : List Char)
    (hocc : occursIn old s = true) :
    ∃ A B : List Char,
      s = A ++ old ++ B ∧
      replaceFirst old new s = A ++ new ++ B ∧
      ∀ A' B' : List Char, s = A' ++ old ++ B' → A.length ≤ A'.length := by
  induction s with
  | nil =>
    unfold occursIn at hocc
    obtain ⟨t, ht⟩ := isPrefixOf_eq_true.mp hocc
    have hold : old = [] := by
      cases old with
      | nil => rfl
      | cons c cs => simp at ht
    subst hold
    have ht' : t = [] := by simpa using ht.symm
    subst ht'
    refine ⟨[], [], by simp, ?_, fun A' B' h => by simp⟩
    unfold replaceFirst
    simp
  | cons c rest ih =>
    by_cases hpre : old.isPrefixOf (c :: rest) = true
    · obtain ⟨t, ht⟩ := isPrefixOf_eq_true.mp hpre
      refine ⟨[], t, by simpa using ht, ?_, fun A' B' h => Nat.zero_le _⟩
      unfold replaceFirst
      rw [if_pos hpre, ht, List.drop_left]
      simp
    · have hocc' : occursIn old rest = true := by
        unfold occursIn at hocc
        rw [Bool.or_eq_true] at hocc
        rcases hocc with h | h
        · exact absurd h hpre
        · exact h
      obtain ⟨A, B, hs, hr, hmin⟩ := ih hocc'
      refine ⟨c :: A, B, by simp [hs], ?_, ?_⟩
      · unfold replaceFirst
        rw [if_neg hpre, hr]
        simp
      · rintro A' B' h
        cases A' with
        | nil =>
          refine absurd (isPrefixOf_eq_true.mpr ⟨B', by simpa using h⟩) hpre
        | cons a A'' =>
          simp only [List.cons_append, List.cons.injEq] at h
          obtain ⟨rfl, hrest⟩ := h
          simpa using Nat.succ_le_succ (hmin A'' B' hrest)

/-- C2: a targeted patch (old fragment neither empty/whitespace-only nor the rewrite
sentinel) whose old fragment occurs at least twice in the file and is not a
whitespace-disguised full rewrite succeeds and replaces exactly the leftmost
occurrence: the written content is A ++ new ++ B for the minimal decomposition
content = A ++ old ++ B, so every other character — in particular everything after the
replaced region, where all later occurrences live — is unchanged; the whole content is
written back to the file and every other path is untouched. -/
theorem apply_targeted_first_occurrence (fs : FileSystem) (edit : FileEdit)
    (current : String)
    (hp : endsWithSlash edit.file_path = false)
    (hne : stripChars edit.old_content.data ≠ [])
    (hsent : edit.old_content ≠ "REWRITE_ENTIRE_FILE")
    (hread : readFile fs edit.file_path = some current)
    (hstrip : stripChars edit.old_content.data ≠ stripChars current.data)
    (htwice : 2 ≤ occCount edit.old_content.data current.data) :
    (apply_edit fs edit).1 = DiffResult.mk true none ∧
    (∃ A B : List Char,
      current.data = A ++ edit.old_content.data ++ B ∧
      (readFile (apply_edit fs edit).2 edit.file_path).map String.data =
        some (A ++ edit.new_content.data ++ B) ∧
      (∀ A' B' : List Char,
        current.data = A' ++ edit.old_content.data ++ B' → A.length ≤ A'.length)) ∧
    (∀ q, q ≠ edit.file_path → readFile (apply_edit fs edit).2 q = readFile fs q) := by
  have hocc : occursIn edit.old_content.data current.data = true :=
    occursIn_of_occCount _ _ (by omega)
  have hdc : fs.dirs.contains edit.file_path = false := by
    by_contra hc
    simp only [Bool.not_eq_false] at hc
    have hc' : edit.file_path ∈ fs.dirs := by simpa using hc
    simp [readFile, hc'] at hread
  have hdc' : edit.file_path ∉ fs.dirs := by simpa using hdc
  have hw : writeFile fs edit.file_path
      (String.mk (replaceFirst edit.old_content.data edit.new_content.data
        current.data)) =
      some (FileSystem.mk
        (setFile fs.files edit.file_path
          (String.mk (replaceFirst edit.old_content.data edit.new_content.data
            current.data)))
        fs.dirs) := by
    unfold writeFile
    rw [hdc]
    simp
  have happ : apply_edit fs edit =
      (DiffResult.mk true none,
        FileSystem.mk
          (setFile fs.files edit.file_path
            (String.mk (replaceFirst edit.old_content.data edit.new_content.data
              current.data)))
          fs.dirs) := by
    unfold apply_edit
    rw [hp, hread]
    simp [hne, hsent, hstrip, hocc, hw]
  rw [happ]
  obtain ⟨A, B, hs, hr, hmin⟩ :=
    replaceFirst_decomp edit.old_content.data edit.new_content.data current.data hocc
  refine ⟨rfl, ⟨A, B, hs, ?_, hmin⟩, ?_⟩
  · simp only [readFile]
    rw [if_neg (by simpa using hdc')]
    rw [lookupFile_setFile_self]
    simp [hr]
  · intro q hq
    by_cases hcq : q ∈ fs.dirs
    · simp [readFile, hcq]
    · simp [readFile, hcq, lookupFile_setFile_other fs.files edit.file_path _ q hq]

/-- C2 witness: in f.txt = "one two one", patching old="one" to new="1" succeeds and
yields "1 two one" — the first occurrence replaced, the second untouched. -/
theorem apply_targeted_first_occurrence_witness :
    (apply_edit fsFix editPatchFix).1 = DiffResult.mk true none ∧
    (∃ A B : List Char,
      ("one two one" : String).data = A ++ editPatchFix.old_content.data ++ B ∧
      (readFile (apply_edit fsFix editPatchFix).2 editPatchFix.file_path).map
        String.data = some (A ++ editPatchFix.new_content.data ++ B) ∧
      (∀ A' B' : List Char,
        ("one two one" : String).data = A' ++ editPatchFix.old_content.data ++ B' →
          A.length ≤ A'.length)) :=
  ⟨(apply_targeted_first_occurrence fsFix editPatchFix "one two one" (by decide)
      (by decide) (by decide) (by decide) (by decide) (by decide)).1,
   (apply_targeted_first_occurrence fsFix editPatchFix "one two one" (by decide)
      (by decide) (by decide) (by decide) (by decide) (by decide)).2.1⟩

/-- C3: apply_edits attempts candidates strictly in list order and stops at the first
failure — every result except possibly the last is a success, a result list shorter
than the candidate list ends in the one failed result, and both the result list and the
final filesystem are exactly those of running only the attempted prefix, so candidates
after the first failure are never applied and have no effect on any file. -/
theorem apply_edits_cons_pos {fs : FileSystem} {e : FileEdit} {rest : List FileEdit}
    (hr : (apply_edit fs e).1.success = true) :
    apply_edits fs (e :: rest) =
      ((apply_edit fs e).1 :: (apply_edits (apply_edit fs e).2 rest).1,
        (apply_edits (apply_edit fs e).2 rest).2) := by
  rw [apply_edits]
  simp [hr]

theorem apply_edits_cons_neg {fs : FileSystem} {e : FileEdit} {rest : List FileEdit}
    (hr : (apply_edit fs e).1.success = false) :
    apply_edits fs (e :: rest) = ([(apply_edit fs e).1], (apply_edit fs e).2) := by
  rw [apply_edits]
  simp [hr]

theorem apply_edits_stop_on_failure (edits : List FileEdit) (fs : FileSystem) :
    ((apply_edits fs edits).1.length ≤ edits.length) ∧
    (∀ r ∈ (apply_edits fs edits).1.dropLast, r.success = true) ∧
    ((apply_edits fs edits).1.length < edits.length →
      ∃ r, (apply_edits fs edits).1.getLast? = some r ∧ r.success = false) ∧
    apply_edits fs edits = apply_edits fs (edits.take (apply_edits fs edits).1.length)
    := by
  induction edits generalizing fs with
  | nil => exact ⟨Nat.le_refl _, by simp [apply_edits], by simp [apply_edits], rfl⟩
  | cons e rest ih =>
    by_cases hr : (apply_edit fs e).1.success = true
    · have hstep := @apply_edits_cons_pos fs e rest hr
      obtain ⟨ih1, ih2, ih3, ih4⟩ := ih (apply_edit fs e).2
      refine ⟨?_, ?_, ?_, ?_⟩
      · rw [hstep]
        simpa using Nat.succ_le_succ ih1
      · rw [hstep]
        intro r hmem
        cases hrs : (apply_edits (apply_edit fs e).2 rest).1 with
        | nil => rw [hrs] at hmem; simp at hmem
        | cons x xs =>
          rw [hrs] at hmem
          rw [List.dropLast_cons_of_ne_nil (by simp)] at hmem
          rcases List.mem_cons.mp hmem with h | h
          · rw [h]; exact hr
          · exact ih2 r (by rw [hrs]; exact h)
      · rw [hstep]
        intro hlt
        simp only [List.length_cons, Nat.succ_lt_succ_iff] at hlt
        obtain ⟨r, hlast, hfail⟩ := ih3 hlt
        refine ⟨r, ?_, hfail⟩
        cases hrs : (apply_edits (apply_edit fs e).2 rest).1 with
        | nil =>
          rw [hrs] at hlast
          simp at hlast
        | cons x xs =>
          rw [hrs] at hlast
          simp only [hrs, List.getLast?_cons_cons]
          exact hlast
      · rw [hstep]
        simp only [List.length_cons, List.take_succ_cons]
        rw [@apply_edits_cons_pos fs e
          (rest.take (apply_edits (apply_edit fs e).2 rest).1.length) hr, ← ih4]
    · rw [Bool.not_eq_true] at hr
      have hstep := @apply_edits_cons_neg fs e rest hr
      refine ⟨?_, ?_, ?_, ?_⟩
      · rw [hstep]
        simp
      · rw [hstep]
        simp
      · rw [hstep]
        intro _
        exact ⟨(apply_edit fs e).1, by simp, hr⟩
      · rw [hstep]
        simp only [List.length_singleton, List.take_succ_cons, List.take_zero]
        rw [@apply_edits_cons_neg fs e [] hr]

/-- C3 witness: on the concrete (valid, invalid, valid) list over fsFix, exactly two
results come back — the successes before the failure — and the third candidate's
file is never created. -/
theorem apply_edits_stop_on_failure_witness :
    (apply_edits fsFix editsFix).1.length ≤ editsFix.length ∧
    (apply_edits fsFix editsFix).1.length = 2 ∧
    (∀ r ∈ (apply_edits fsFix editsFix).1.dropLast, r.success = true) ∧
    readFile (apply_edits fsFix editsFix).2 editNewFix.file_path = none :=
  ⟨(apply_edits_stop_on_failure editsFix fsFix).1, by decide,
   (apply_edits_stop_on_failure editsFix fsFix).2.1, by decide⟩

/-- String concatenation concatenates the character data. -/
theorem string_data_append (a b : String) : (a ++ b).data = a.data ++ b.data := rfl

/-- A prefix occurrence is an occurrence. -/
theorem occursIn_of_isPrefixOf {n h : List Char} (hp : n.isPrefixOf h = true) :
    occursIn n h = true := by
  cases h with
  | nil => exact hp
  | cons c rest => simp [occursIn, hp]

/-- A needle occurs in any character list of the shape a ++ needle ++ b. -/
theorem occursIn_append_middle (n a b : List Char) :
    occursIn n (a ++ n ++ b) = true := by
  induction a with
  | nil =>
    apply occursIn_of_isPrefixOf
    exact isPrefixOf_eq_true.mpr ⟨b, by simp⟩
  | cons c a ih =>
    simp only [List.cons_append]
    unfold occursIn
    rw [ih]
    simp

/-- C7: counterexample — for the targeted candidate old="zzz" against f.txt
(content "one two one"), validate's failure message is exactly
"Content validation will fail for f.txt": it contains neither the 100-character preview
of the sought fragment nor that of the file content. -/
theorem validate_miss_message_has_no_preview :
    validate_edit fsFix editMissFix =
      DiffResult.mk false (some ("Content validation will fail for " ++
        editMissFix.file_path)) ∧
    occursIn (pyPreview editMissFix.old_content).data
      ("Content validation will fail for " ++ editMissFix.file_path).data = false ∧
    occursIn (pyPreview "one two one").data
      ("Content validation will fail for " ++ editMissFix.file_path).data = false := by
  refine ⟨by decide, by decide, by decide⟩

/-- C7 (amended): for a targeted patch whose old fragment is not found, validate's
diagnostic names only the file path ("Content validation will fail for <path>"); the
diagnostic carrying the repr of the truncated 100-character previews of both the sought
fragment and the file content is the one produced by apply_edit's no-match branch,
which also leaves the filesystem unchanged. -/
theorem targeted_miss_diagnostics (fs : FileSystem) (edit : FileEdit)
    (current : String)
    (hp : endsWithSlash edit.file_path = false)
    (hne : stripChars edit.old_content.data ≠ [])
    (hsent : edit.old_content ≠ "REWRITE_ENTIRE_FILE")
    (hread : readFile fs edit.file_path = some current)
    (hstrip : stripChars edit.old_content.data ≠ stripChars current.data)
    (hocc : occursIn edit.old_content.data current.data = false) :
    validate_edit fs edit =
      DiffResult.mk false
        (some ("Content validation will fail for " ++ edit.file_path)) ∧
    (apply_edit fs edit).1 =
      DiffResult.mk false (some (notFoundMsg edit current)) ∧
    (apply_edit fs edit).2 = fs ∧
    occursIn (pyRepr (pyPreview edit.old_content)).data
      (notFoundMsg edit current).data = true ∧
    occursIn (pyRepr (pyPreview current)).data (notFoundMsg edit current).data = true
    := by
  have hex : pathExists fs edit.file_path = true := by
    unfold readFile at hread
    by_cases hc : fs.dirs.contains edit.file_path = true
    · rw [if_pos hc] at hread
      exact Option.noConfusion hread
    · rw [Bool.not_eq_true] at hc
      rw [if_neg (by rw [hc]; simp)] at hread
      simp [pathExists, hread]
  refine ⟨?_, ?_, ?_, ?_, ?_⟩
  · unfold validate_edit
    rw [hread]
    simp [hne, hsent, hex, hstrip, hocc]
  · unfold apply_edit
    rw [hp, hread]
    simp [hne, hsent, hstrip, hocc]
  · unfold apply_edit
    rw [hp, hread]
    simp [hne, hsent, hstrip, hocc]
  · have h1 : (notFoundMsg edit current).data =
        ("Old content not found in " ++ edit.file_path ++ ".\nLooking for: ").data ++
          (pyRepr (pyPreview edit.old_content)).data ++
          ("\nFile starts with: " ++ pyRepr (pyPreview current)).data := by
      simp [notFoundMsg, string_data_append, List.append_assoc]
    rw [h1]
    exact occursIn_append_middle _ _ _
  · have h2 : (notFoundMsg edit current).data =
        ("Old content not found in " ++ edit.file_path ++ ".\nLooking for: " ++
            pyRepr (pyPreview edit.old_content) ++ "\nFile starts with: ").data ++
          (pyRepr (pyPreview current)).data ++ [] := by
      simp [notFoundMsg, string_data_append, List.append_assoc]
    rw [h2]
    exact occursIn_append_middle _ _ _

/-- C7 (amended) witness: the concrete miss of old="zzz" against f.txt — validate's
bare message, and apply's preview-carrying message. -/
theorem targeted_miss_diagnostics_witness :
    validate_edit fsFix editMissFix =
      DiffResult.mk false
        (some ("Content validation will fail for " ++ editMissFix.file_path)) ∧
    occursIn (pyRepr (pyPreview editMissFix.old_content)).data
      (notFoundMsg editMissFix "one two one").data = true :=
  ⟨(targeted_miss_diagnostics fsFix editMissFix "one two one" (by decide) (by decide)
      (by decide) (by decide) (by decide) (by decide)).1,
   (targeted_miss_diagnostics fsFix editMissFix "one two one" (by decide) (by decide)
      (by decide) (by decide) (by decide) (by decide)).2.2.2.1⟩

/-- The get_next_todo comparison is transitive. -/
theorem todoLE_trans : ∀ a b c : Todo, todoLE a b → todoLE b c → todoLE a c := by
  intro a b c hab hbc
  simp only [todoLE, decide_eq_true_eq] at *
  omega

/-- The get_next_todo comparison is total. -/
theorem todoLE_total : ∀ a b : Todo, todoLE a b || todoLE b a := by
  intro a b
  simp only [todoLE, Bool.or_eq_true, decide_eq_true_eq]
  omega

/-- Membership through stable insertion. -/
theorem mem_insertSorted (t x : Todo) (l : List Todo) :
    x ∈ insertSorted t l ↔ x = t ∨ x ∈ l := by
  induction l with
  | nil => simp [insertSorted]
  | cons u us ih =>
    unfold insertSorted
    by_cases h : todoLE t u = true
    · rw [if_pos h]
      simp [List.mem_cons]
    · rw [if_neg h]
      simp [List.mem_cons, ih]
      tauto

/-- Length through stable insertion. -/
theorem length_insertSorted (t : Todo) (l : List Todo) :
    (insertSorted t l).length = l.length + 1 := by
  induction l with
  | nil => rfl
  | cons u us ih =>
    unfold insertSorted
    by_cases h : todoLE t u = true
    · rw [if_pos h]
      simp
    · rw [if_neg h]
      simp [ih]

/-- Membership through the stable sort. -/
theorem mem_insertionSort (x : Todo) (l : List Todo) :
    x ∈ insertionSort l ↔ x ∈ l := by
  induction l with
  | nil => simp [insertionSort]
  | cons t ts ih => simp [insertionSort, mem_insertSorted, ih]

/-- Length through the stable sort. -/
theorem length_insertionSort (l : List Todo) :
    (insertionSort l).length = l.length := by
  induction l with
  | nil => rfl
  | cons t ts ih => simp [insertionSort, length_insertSorted, ih]

/-- Stable insertion preserves sortedness under the total transitive comparison. -/
theorem pairwise_insertSorted (t : Todo) (l : List Todo)
    (hl : l.Pairwise fun a b => todoLE a b = true) :
    (insertSorted t l).Pairwise fun a b => todoLE a b = true := by
  induction l with
  | nil => simp [insertSorted]
  | cons u us ih =>
    rcases List.pairwise_cons.mp hl with ⟨hu, hus⟩
    unfold insertSorted
    by_cases h : todoLE t u = true
    · rw [if_pos h]
      refine List.pairwise_cons.mpr ⟨?_, hl⟩
      intro b hb
      rcases List.mem_cons.mp hb with rfl | hbu
      · exact h
      · exact todoLE_trans t u b h (hu b hbu)
    · rw [if_neg h]
      refine List.pairwise_cons.mpr ⟨?_, ih hus⟩
      intro b hb
      rcases (mem_insertSorted t b us).mp hb with rfl | hbu
      · have htot : todoLE b u = true ∨ todoLE u b = true := by
          simpa using todoLE_total b u
        rcases htot with h1 | h1
        · exact absurd h1 h
        · exact h1
      · exact hu b hbu

/-- The stable sort is sorted. -/
theorem pairwise_insertionSort (l : List Todo) :
    (insertionSort l).Pairwise fun a b => todoLE a b = true := by
  induction l with
  | nil => simp [insertionSort]
  | cons t ts ih => exact pairwise_insertSorted t _ ih

/-- The Boolean readiness predicate of get_ready_todos, characterised. -/
theorem ready_filter_char (m : TodoManager) (t : Todo) :
    (decide (t.status = TodoStatus.pending) &&
      t.dependencies.all fun d => (completedIds m.todos).contains d) = true ↔
    (t.status = TodoStatus.pending ∧ ∀ d ∈ t.dependencies, d ∈ completedIds m.todos)
    := by
  simp [List.all_eq_true]

/-- Membership in the ready list, characterised. -/
theorem mem_ready_iff (m : TodoManager) (t : Todo) :
    t ∈ m.get_ready_todos ↔
      t ∈ m.todos ∧ t.status = TodoStatus.pending ∧
        ∀ d ∈ t.dependencies, d ∈ completedIds m.todos := by
  unfold TodoManager.get_ready_todos
  rw [List.mem_filter, ready_filter_char]

/-- Membership in the completed-ids list, characterised. -/
theorem mem_completedIds_iff (ts : List Todo) (d : Int) :
    d ∈ completedIds ts ↔ ∃ u ∈ ts, u.id = d ∧ u.status = TodoStatus.completed := by
  unfold completedIds
  simp only [List.mem_map, List.mem_filter, decide_eq_true_eq]
  constructor
  · rintro ⟨u, ⟨hu, hc⟩, rfl⟩
    exact ⟨u, hu, rfl, hc⟩
  · rintro ⟨u, hu, rfl, hc⟩
    exact ⟨u, ⟨hu, hc⟩, rfl⟩

/-- C1: get_next_todo returns none exactly when no pending todo has all of its
dependency ids among the completed todos' ids; when it returns a todo, that todo is a
pending todo of the set whose dependencies all belong to completed todos, and it is
minimal among all ready todos by priority rank (high=0, medium=1, low=2, others
defaulting to 1) with ties broken by ascending id — in particular no todo is ever
returned while one of its dependencies is not completed. -/
theorem get_next_todo_spec (m : TodoManager) :
    (m.get_next_todo = none ↔
      ∀ t ∈ m.todos, ¬ (t.status = TodoStatus.pending ∧
        ∀ d ∈ t.dependencies, d ∈ completedIds m.todos)) ∧
    (∀ t, m.get_next_todo = some t →
      t ∈ m.todos ∧ t.status = TodoStatus.pending ∧
      (∀ d ∈ t.dependencies,
        ∃ u ∈ m.todos, u.id = d ∧ u.status = TodoStatus.completed) ∧
      (∀ u ∈ m.get_ready_todos,
        priorityRank t.priority < priorityRank u.priority ∨
          (priorityRank t.priority = priorityRank u.priority ∧ t.id ≤ u.id))) := by
  have hready_iff : (m.get_ready_todos = []) ↔
      ∀ t ∈ m.todos, ¬ (t.status = TodoStatus.pending ∧
        ∀ d ∈ t.dependencies, d ∈ completedIds m.todos) := by
    unfold TodoManager.get_ready_todos
    rw [List.filter_eq_nil_iff]
    constructor
    · intro h t ht hc
      exact h t ht ((ready_filter_char m t).mpr ⟨hc.1, hc.2⟩)
    · intro h t ht hc
      exact h t ht ((ready_filter_char m t).mp hc)
  have hms : (insertionSort m.get_ready_todos = []) ↔ m.get_ready_todos = [] := by
    constructor
    · intro h
      have hlen := congrArg List.length h
      simpa [length_insertionSort] using hlen
    · intro h
      rw [h]
      rfl
  have hhead : ∀ (l : List Todo), l.head? = none ↔ l = [] := by
    intro l
    cases l <;> simp
  constructor
  · unfold TodoManager.get_next_todo
    rw [hhead, hms, hready_iff]
  · intro t ht
    unfold TodoManager.get_next_todo at ht
    obtain ⟨tail, hsort⟩ : ∃ tail, insertionSort m.get_ready_todos = t :: tail := by
      cases hs : insertionSort m.get_ready_todos with
      | nil => rw [hs] at ht; simp at ht
      | cons x xs =>
        rw [hs] at ht
        simp only [List.head?_cons, Option.some.injEq] at ht
        exact ⟨xs, by rw [ht]⟩
    have htmem : t ∈ m.get_ready_todos := by
      have hx : t ∈ insertionSort m.get_ready_todos := by
        rw [hsort]
        exact List.mem_cons_self _ _
      exact (mem_insertionSort t _).mp hx
    have hchar := (mem_ready_iff m t).mp htmem
    refine ⟨hchar.1, hchar.2.1, ?_, ?_⟩
    · intro d hd
      exact (mem_completedIds_iff m.todos d).mp (hchar.2.2 d hd)
    · intro u hu
      have humem : u ∈ insertionSort m.get_ready_todos := (mem_insertionSort u _).mpr hu
      rw [hsort] at humem
      rcases List.mem_cons.mp humem with rfl | hutail
      · right
        exact ⟨rfl, le_refl _⟩
      · have hpw := pairwise_insertionSort m.get_ready_todos
        rw [hsort] at hpw
        have hle := (List.pairwise_cons.mp hpw).1 u hutail
        simpa [todoLE, decide_eq_true_eq] using hle

/-- C1 witness: among pending todos of priorities low, high, medium with no
dependencies, get_next_todo returns the high-priority one, and it is rank-minimal over
the ready set. -/
theorem get_next_todo_spec_witness :
    mgrPrioFix.get_next_todo = some prioHighFix ∧
    (prioHighFix ∈ mgrPrioFix.todos ∧
      prioHighFix.status = TodoStatus.pending ∧
      (∀ d ∈ prioHighFix.dependencies,
        ∃ u ∈ mgrPrioFix.todos, u.id = d ∧ u.status = TodoStatus.completed) ∧
      (∀ u ∈ mgrPrioFix.get_ready_todos,
        priorityRank prioHighFix.priority < priorityRank u.priority ∨
          (priorityRank prioHighFix.priority = priorityRank u.priority ∧
            prioHighFix.id ≤ u.id))) :=
  ⟨by decide, (get_next_todo_spec mgrPrioFix).2 prioHighFix (by decide)⟩

/-- A selected todo belongs to the remaining list. -/
theorem selectNextTodo_mem {remaining completed : List Todo} {t : Todo}
    (h : selectNextTodo remaining completed = some t) : t ∈ remaining := by
  cases remaining with
  | nil => simp [selectNextTodo] at h
  | cons r rs =>
    unfold selectNextTodo at h
    cases hr : readyTodos (r :: rs) completed with
    | nil =>
      rw [hr] at h
      simp only [Option.some.injEq] at h
      rw [← h]
      exact List.mem_cons_self r rs
    | cons x xs =>
      rw [hr] at h
      simp only [Option.some.injEq] at h
      exact List.mem_of_mem_filter
        (show t ∈ readyTodos (r :: rs) completed by
          rw [hr, ← h]
          exact List.mem_cons_self x xs)

/-- Nothing is selected only when nothing remains. -/
theorem selectNextTodo_none {remaining completed : List Todo}
    (h : selectNextTodo remaining completed = none) : remaining = [] := by
  cases remaining with
  | nil => rfl
  | cons r rs =>
    unfold selectNextTodo at h
    cases hr : readyTodos (r :: rs) completed with
    | nil => rw [hr] at h; simp at h
    | cons x xs => rw [hr] at h; simp at h

/-- The loop processes exactly as many todos as remain: it always selects one, removes
it, and recurses, so it terminates having visited everything. -/
theorem processLoop_length (outcome : Todo → Bool) (remaining completed : List Todo) :
    (processLoop outcome remaining completed).length = remaining.length := by
  generalize hn : remaining.length = n
  induction n using Nat.strong_induction_on generalizing remaining completed with
  | _ n ih =>
    rw [processLoop.eq_def]
    split
    · rename_i hsel
      have hrem := selectNextTodo_none hsel
      subst hrem
      simpa using hn
    · rename_i cur hsel
      have hmem := selectNextTodo_mem hsel
      have herase : (remaining.erase cur).length = remaining.length - 1 :=
        List.length_erase_of_mem hmem
      have hpos : 0 < remaining.length :=
        List.length_pos.mpr (by rintro rfl; simp at hmem)
      have hrec := ih (remaining.erase cur).length (by omega) (remaining.erase cur)
        (if outcome cur then completed ++ [cur] else completed) rfl
      simp only [List.length_cons, hrec]
      omega

/-- C9: whenever no remaining todo has all of its dependency ids among the completed
todos' ids but todos remain, the loop force-selects the first remaining todo in
original plan order (ignoring its unmet dependencies); some todo is always selected
from a nonempty remaining list, and the loop processes exactly as many todos as remain
— it never deadlocks with todos remaining. -/
theorem escape_valve_spec (remaining completed : List Todo) (h : remaining ≠ []) :
    (readyTodos remaining completed = [] →
      selectNextTodo remaining completed = remaining.head?) ∧
    (∃ t, selectNextTodo remaining completed = some t ∧ t ∈ remaining) ∧
    (∀ outcome : Todo → Bool,
      (processLoop outcome remaining completed).length = remaining.length) := by
  refine ⟨?_, ?_, fun outcome => processLoop_length outcome remaining completed⟩
  · intro hready
    cases remaining with
    | nil => exact absurd rfl h
    | cons r rs =>
      unfold selectNextTodo
      rw [hready]
      rfl
  · cases hsel : selectNextTodo remaining completed with
    | none => exact absurd (selectNextTodo_none hsel) h
    | some t => exact ⟨t, rfl, selectNextTodo_mem hsel⟩

/-- C9 witness: with one remaining todo whose dependency 2 is not completed, the ready
set is empty, the loop force-selects that first todo, and exactly one todo is
processed. -/
theorem escape_valve_spec_witness :
    readyTodos [blockedTodoFix] [] = [] ∧
    selectNextTodo [blockedTodoFix] [] = some blockedTodoFix ∧
    (processLoop (fun _ => true) [blockedTodoFix] []).length = 1 :=
  ⟨by decide,
   by
     have hx := (escape_valve_spec [blockedTodoFix] [] (by decide)).1 (by decide)
     simpa using hx,
   by
     have hy := (escape_valve_spec [blockedTodoFix] [] (by decide)).2.2 (fun _ => true)
     simpa using hy⟩

/-- The decimal digit characters lie in the ASCII range '0'..'9'. -/
theorem digitChar10_range (n : Nat) :
    48 ≤ (digitChar10 n).toNat ∧ (digitChar10 n).toNat ≤ 57 := by
  unfold digitChar10
  repeat' split
  all_goals decide

/-- Every character produced by natDigitsAux is a decimal digit. -/
theorem natDigitsAux_range (fuel : Nat) :
    ∀ (n : Nat), ∀ c ∈ natDigitsAux fuel n, 48 ≤ c.toNat ∧ c.toNat ≤ 57 := by
  induction fuel with
  | zero =>
    intro n c hc
    simp [natDigitsAux] at hc
  | succ fuel ih =>
    intro n c hc
    unfold natDigitsAux at hc
    by_cases h : n < 10
    · rw [if_pos h] at hc
      simp only [List.mem_singleton] at hc
      subst hc
      exact digitChar10_range n
    · rw [if_neg h] at hc
      rcases List.mem_append.mp hc with h1 | h1
      · exact ih _ c h1
      · simp only [List.mem_singleton] at h1
        subst h1
        exact digitChar10_range _

/-- Decimal strings contain no line terminators. -/
theorem natStr_no_term (n : Nat) : ∀ c ∈ (natStr n).data, c ≠ '\n' ∧ c ≠ '\r' := by
  intro c hc
  have hr := natDigitsAux_range (n + 1) n c hc
  refine ⟨fun he => ?_, fun he => ?_⟩
  · subst he
    exact absurd hr.1 (by decide)
  · subst he
    exact absurd hr.1 (by decide)

/-- Concatenation preserves freedom from line terminators. -/
theorem no_term_append (a b : String)
    (ha : ∀ c ∈ a.data, c ≠ '\n' ∧ c ≠ '\r')
    (hb : ∀ c ∈ b.data, c ≠ '\n' ∧ c ≠ '\r') :
    ∀ c ∈ (a ++ b).data, c ≠ '\n' ∧ c ≠ '\r' := by
  intro c hc
  rw [string_data_append] at hc
  rcases List.mem_append.mp hc with h | h
  · exact ha c h
  · exact hb c h

/-- slChars steps over a non-terminator character by prepending it to the first line. -/
theorem slChars_cons_other (c : Char) (rest : List Char) (hn : c ≠ '\n')
    (hr : c ≠ '\r') :
    slChars (c :: rest) =
      match slChars rest with
      | [] => [String.mk [c]]
      | l :: ls => String.mk (c :: l.data) :: ls := by
  simp [slChars, hn, hr]

/-- Splitting a terminator-free chunk followed by a newline peels off one line. -/
theorem slChars_append_nl (xs : List Char) (hx : ∀ c ∈ xs, c ≠ '\n' ∧ c ≠ '\r')
    (rest : List Char) :
    slChars (xs ++ '\n' :: rest) = String.mk xs :: slChars rest := by
  induction xs with
  | nil => rfl
  | cons c xs ih =>
    have hc := hx c (List.mem_cons_self c xs)
    have hxs : ∀ a ∈ xs, a ≠ '\n' ∧ a ≠ '\r' :=
      fun a ha => hx a (List.mem_cons_of_mem c ha)
    rw [List.cons_append, slChars_cons_other c _ hc.1 hc.2, ih hxs]

/-- A terminator-free nonempty character list splits into a single line. -/
theorem slChars_no_term (xs : List Char) (hx : ∀ c ∈ xs, c ≠ '\n' ∧ c ≠ '\r')
    (hne : xs ≠ []) :
    slChars xs = [String.mk xs] := by
  induction xs with
  | nil => exact absurd rfl hne
  | cons c xs ih =>
    have hc := hx c (List.mem_cons_self c xs)
    have hxs : ∀ a ∈ xs, a ≠ '\n' ∧ a ≠ '\r' :=
      fun a ha => hx a (List.mem_cons_of_mem c ha)
    rw [slChars_cons_other c xs hc.1 hc.2]
    by_cases hxe : xs = []
    · subst hxe
      rfl
    · rw [ih hxs hxe]

/-- splitlines inverts "\n".join for terminator-free lines with a nonempty last line. -/
theorem splitlines_joinNL (ls : List String)
    (h : ∀ l ∈ ls, ∀ c ∈ l.data, c ≠ '\n' ∧ c ≠ '\r')
    (hlast : ls.getLast? ≠ some (String.mk [])) :
    splitlines (joinNL ls) = ls := by
  induction ls with
  | nil => rfl
  | cons l ls ih =>
    cases ls with
    | nil =>
      have hl := h l (List.mem_cons_self _ _)
      have hne : l.data ≠ [] := by
        intro hemp
        apply hlast
        have hl0 : l = String.mk [] := by
          cases l with
          | mk d =>
            simp only at hemp
            rw [hemp]
        rw [hl0]
        rfl
      show slChars l.data = [l]
      rw [slChars_no_term l.data hl hne]
    | cons l2 ls2 =>
      have hl := h l (List.mem_cons_self _ _)
      have hrest : ∀ x ∈ l2 :: ls2, ∀ c ∈ x.data, c ≠ '\n' ∧ c ≠ '\r' :=
        fun x hx => h x (List.mem_cons_of_mem _ hx)
      have hlast2 : (l2 :: ls2).getLast? ≠ some (String.mk []) := by
        rw [← List.getLast?_cons_cons]
        exact hlast
      have ihx : slChars (joinNL (l2 :: ls2)).data = l2 :: ls2 := ih hrest hlast2
      show slChars (joinNL (l :: l2 :: ls2)).data = l :: l2 :: ls2
      have hjoin : (joinNL (l :: l2 :: ls2)).data =
          l.data ++ '\n' :: (joinNL (l2 :: ls2)).data := by
        show (l ++ "\n" ++ joinNL (l2 :: ls2)).data = _
        rw [string_data_append, string_data_append,
          show ("\n" : String).data = ['\n'] from by decide]
        simp
      rw [hjoin, slChars_append_nl l.data hl _, ihx]

/-- A list all of whose elements are nonempty strings never ends in the empty string. -/
theorem getLast?_ne_empty (ys : List String) (hy : ∀ y ∈ ys, y.data ≠ []) :
    ys.getLast? ≠ some (String.mk []) := by
  intro hcon
  have hmem : String.mk [] ∈ ys := List.mem_of_getLast?_eq_some hcon
  exact hy _ hmem rfl

/-- Replaying a block of '+'-prefixed lines emits exactly their payloads. -/
theorem foldl_plus_lines (old_lines : List String) (ys : List String)
    (out : List String) (pos : Nat) :
    (ys.map (fun x => "+" ++ x)).foldl (applyHunkLine old_lines) (out, pos) =
      (out ++ ys, pos) := by
  induction ys generalizing out with
  | nil => simp
  | cons y ys ih =>
    simp only [List.map_cons, List.foldl_cons]
    have hstep : applyHunkLine old_lines (out, pos) ("+" ++ y) = (out ++ [y], pos) := by
      have hdata : ("+" ++ y).data = '+' :: y.data := by
        rw [string_data_append, show ("+" : String).data = ['+'] from by decide]
        rfl
      unfold applyHunkLine
      rw [hdata]
      rfl
    rw [hstep, ih]
    simp

/-- find_longest_match over an empty left range finds nothing. -/
theorem flm_nil_left (b : List String) (blo bhi : Nat) :
    find_longest_match [] b 0 0 blo bhi = MatchBlock.mk 0 blo 0 := rfl

/-- The block recursion over an empty left side stops immediately. -/
theorem matchBlocksAux_nil_left (b : List String) (fuel : Nat) :
    matchBlocksAux [] b (fuel + 1) 0 0 0 b.length = [] := by
  rw [matchBlocksAux]
  simp [flm_nil_left]

/-- get_matching_blocks over an empty left side is just the terminator block. -/
theorem get_matching_blocks_nil_left (b : List String) :
    get_matching_blocks [] b = [MatchBlock.mk 0 b.length 0] := by
  unfold get_matching_blocks
  simp only [List.length_nil, Nat.zero_add]
  rw [matchBlocksAux_nil_left]
  rfl

/-- get_opcodes over an empty left side: one insert covering the new lines. -/
theorem get_opcodes_nil_left (b : List String) :
    get_opcodes [] b =
      if b.length = 0 then [] else [Opcode.mk OpTag.insert 0 0 0 b.length] := by
  unfold get_opcodes
  rw [get_matching_blocks_nil_left]
  unfold opcodesFrom
  by_cases hb : b.length = 0
  · simp [hb]
    rfl
  · simp [hb, Nat.pos_of_ne_zero hb]
    rfl

set_option maxRecDepth 10000

/-- C8: counterexample — for the full rewrite oldRFix = "a\nx\nb\ny\nc" into
newRFix = "a\nX\nb\nY\nc" (two separated changed lines), replaying the generated diff
over the old text yields "a\nX\nb\ny\nc": the second change is lost because the
generator emits only the first differing region, so the diff does not record every
difference between old and new and the round trip fails. -/
theorem diff_round_trip_fails :
    applyHunks oldRFix (generate_diff_text oldRFix newRFix "f.txt") =
      "a\nX\nb\ny\nc" ∧
    applyHunks oldRFix (generate_diff_text oldRFix newRFix "f.txt") ≠ newRFix := by
  refine ⟨by decide, by decide⟩

/-- C8 (amended): generate_diff_text emits one hunk for only the first non-equal
opcode region, so the claimed round trip fails in general; it does hold for the
brand-new-file case: for any content assembled as "\n"-joined terminator-free lines
with a nonempty last line, replaying the generated creation diff (empty old side) over
the empty old text reconstructs the content exactly, with the @@ header using 1-based
line numbers and 3 lines of context. -/
theorem diff_round_trip_create (lines : List String) (file_path : String)
    (hterm : ∀ l ∈ lines, ∀ c ∈ l.data, c ≠ '\n' ∧ c ≠ '\r')
    (hlast : lines.getLast? ≠ some (String.mk [])) :
    applyHunks "" (generate_diff_text "" (joinNL lines) file_path) = joinNL lines := by
  have hsplit : splitlines (joinNL lines) = lines := splitlines_joinNL lines hterm hlast
  cases lines with
  | nil => rfl
  | cons l ls =>
    have hops : get_opcodes (splitlines "") (splitlines (joinNL (l :: ls))) =
        [Opcode.mk OpTag.insert 0 0 0 (l :: ls).length] := by
      rw [show splitlines "" = ([] : List String) from rfl, hsplit,
        get_opcodes_nil_left]
      simp
    have hfind : (get_opcodes (splitlines "") (splitlines (joinNL (l :: ls)))).find?
        (fun op => decide (¬ op.tag = OpTag.equal)) =
        some (Opcode.mk OpTag.insert 0 0 0 (l :: ls).length) := by
      rw [hops]
      rfl
    have hslice0 : sliceL [] 0 0 = ([] : List String) := rfl
    have hslice : sliceL (l :: ls) 0 (ls.length + 1) = l :: ls := by
      simp [sliceL]
    have hgen : generate_diff_text "" (joinNL (l :: ls)) file_path =
        joinNL (("@@ -" ++ natStr 1 ++ "," ++ natStr 0 ++ " +" ++ natStr 1 ++ "," ++
            natStr (l :: ls).length ++ " @@") ::
          (l :: ls).map (fun x => "+" ++ x)) := by
      unfold generate_diff_text
      simp only [hfind]
      simp only [hsplit, show splitlines "" = ([] : List String) from rfl]
      simp [hslice0, hslice, Nat.min_eq_left (Nat.le_add_right (l :: ls).length 3)]
    rw [hgen]
    have hplusdata : ∀ y : String, ("+" ++ y).data = '+' :: y.data := by
      intro y
      rw [string_data_append, show ("+" : String).data = ['+'] from by decide]
      rfl
    have hhdr_noterm : ∀ c ∈ ("@@ -" ++ natStr 1 ++ "," ++ natStr 0 ++ " +" ++
        natStr 1 ++ "," ++ natStr (l :: ls).length ++ " @@").data,
        c ≠ '\n' ∧ c ≠ '\r' := by
      repeat' apply no_term_append
      all_goals first
        | exact natStr_no_term _
        | decide
    have hdiffsplit : splitlines (joinNL (("@@ -" ++ natStr 1 ++ "," ++ natStr 0 ++
        " +" ++ natStr 1 ++ "," ++ natStr (l :: ls).length ++ " @@") ::
          (l :: ls).map (fun x => "+" ++ x))) =
        ("@@ -" ++ natStr 1 ++ "," ++ natStr 0 ++ " +" ++ natStr 1 ++ "," ++
            natStr (l :: ls).length ++ " @@") ::
          (l :: ls).map (fun x => "+" ++ x) := by
      apply splitlines_joinNL
      · intro x hx c hc
        rcases List.mem_cons.mp hx with rfl | hx2
        · exact hhdr_noterm c hc
        · obtain ⟨y, hy, rfl⟩ := List.mem_map.mp hx2
          rw [hplusdata y] at hc
          rcases List.mem_cons.mp hc with rfl | h1
          · exact ⟨by decide, by decide⟩
          · exact hterm y hy c h1
      · simp only [List.map_cons]
        rw [List.getLast?_cons_cons]
        apply getLast?_ne_empty
        intro y hy
        rcases List.mem_cons.mp hy with rfl | hy2
        · rw [hplusdata]
          simp
        · obtain ⟨x, hx, rfl⟩ := List.mem_map.mp hy2
          rw [hplusdata]
          simp
    have hhdr_step : applyHunkLine [] ([], 0) ("@@ -" ++ natStr 1 ++ "," ++ natStr 0 ++
        " +" ++ natStr 1 ++ "," ++ natStr (l :: ls).length ++ " @@") = ([], 0) := by
      have hdata : ("@@ -" ++ natStr 1 ++ "," ++ natStr 0 ++ " +" ++ natStr 1 ++ "," ++
          natStr (l :: ls).length ++ " @@").data =
          '@' :: '@' :: ' ' :: '-' :: '1' :: ',' :: '0' :: ' ' :: '+' :: '1' :: ',' ::
            ((natStr (l :: ls).length).data ++ [' ', '@', '@']) := by
        simp only [string_data_append]
        rw [show (natStr 1).data = ['1'] from by decide,
          show (natStr 0).data = ['0'] from by decide]
        simp
      unfold applyHunkLine
      rw [hdata]
      simp [parseNatAux, sliceL]
    unfold applyHunks
    simp only [hdiffsplit, show splitlines "" = ([] : List String) from rfl,
      List.foldl_cons]
    rw [hhdr_step, foldl_plus_lines]
    simp

/-- C8 (amended) witness: replaying the creation diff of the two-line content "p\nq"
over the empty old text reconstructs "p\nq". -/
theorem diff_round_trip_create_witness :
    applyHunks "" (generate_diff_text "" (joinNL ["p", "q"]) "b.py") =
      joinNL ["p", "q"] :=
  diff_round_trip_create ["p", "q"] "b.py" (by decide) (by decide)

end Aieng
